import Mathlib

/-!
Verification of the hint-selection engine of `kittens/hints/main.py`
(the kitty "hints" kitten).

Strings from the Python source are modelled as `List Char`, indices as `Nat`.
Python's `str.startswith` becomes `List.isPrefixOf`, `c in alphabet` becomes
`List.contains`, dictionaries become association lists in insertion order, and
code that raises / catches exceptions returns `Option`.  Machine integers do
not occur (Python has arbitrary-precision integers, as does `Nat`/`Int`).
-/

/-- The filler sentinel character `'\0'` used to pad screen lines. -/
def fillerChar : Char := Char.ofNat 0

/-- The single-quote character `'` (written via its code point). -/
def squote : Char := Char.ofNat 39

/-- The double-quote character (written via its code point). -/
def dquote : Char := Char.ofNat 34

/-- The backtick character (written via its code point). -/
def backtickChar : Char := Char.ofNat 96

/-- The opening curly brace character (written via its code point). -/
def lbraceChar : Char := Char.ofNat 123

/-- The closing curly brace character (written via its code point). -/
def rbraceChar : Char := Char.ofNat 125

/-!  Hint codec: `encode_hint` / `decode_hint` (main.py lines 40-56). -/

/-- Loop body of `encode_hint`:
```
while not res or num > 0:
    num, i = divmod(num, d)
    res = alphabet[i] + res
```
The first fuel argument only bounds the number of iterations so that the
definition is total; for every alphabet of length at least 2 a fuel of
`num + 1` is never exhausted (proved below via `encDigits`). -/
def encode_hintAux (A : List Char) : Nat → Nat → List Char → List Char
  | 0, _, res => res
  | fuel + 1, num, res =>
    let res2 := A.getD (num % A.length) ' ' :: res
    if num / A.length = 0 then res2
    else encode_hintAux A fuel (num / A.length) res2

/-- `encode_hint(num, alphabet)` from main.py: positional representation of
`num` in base `len(alphabet)`, most significant digit first; `0` encodes as
the first alphabet symbol (the loop always runs at least once). -/
def encode_hint (num : Nat) (A : List Char) : List Char :=
  encode_hintAux A (num + 1) num []

/-- Reference form of the digit string produced by `encode_hint`, used in the
round-trip proof. -/
def encDigits (A : List Char) (num : Nat) : List Char :=
  if h : num < A.length ∨ A.length ≤ 1 then [A.getD (num % A.length) ' ']
  else encDigits A (num / A.length) ++ [A.getD (num % A.length) ' ']
termination_by num
decreasing_by
  push_neg at h
  exact Nat.div_lt_self (by omega) (by omega)

/-- `index_map = {c: i for i, c in enumerate(alphabet)}` looked up at `c`:
the index of the LAST occurrence of `c` in the alphabet (later dict entries
overwrite earlier ones), `none` when `c` is absent (Python raises `KeyError`).
The `i` argument is the index of the head of the remaining list. -/
def index_map_getAux (c : Char) : List Char → Nat → Option Nat
  | [], _ => none
  | a :: as, i =>
    match index_map_getAux c as (i + 1) with
    | some j => some j
    | none => if a = c then some i else none

/-- Lookup in the `index_map` dictionary built by `decode_hint`. -/
def index_map_get (A : List Char) (c : Char) : Option Nat :=
  index_map_getAux c A 0

/-- Loop of `decode_hint`: `for char in x: i = i * base + index_map[char]`,
with `none` modelling the `KeyError` raised on a character outside the
alphabet. -/
def decode_hintAux (A : List Char) : Nat → List Char → Option Nat
  | i, [] => some i
  | i, c :: cs =>
    match index_map_get A c with
    | none => none
    | some j => decode_hintAux A (i * A.length + j) cs

/-- `decode_hint(x, alphabet)` from main.py (Horner evaluation). -/
def decode_hint (x : List Char) (A : List Char) : Option Nat :=
  decode_hintAux A 0 x

/-!  Overlay renderer: `highlight_mark` (main.py lines 59-72).  The `styled`
and `faint` wrappers only add SGR escape sequences around the text, so the
model returns the visible characters. -/

/-- The badge printed for a match: `hint[len(current_input):] or ' '`. -/
def hintBadge (index : Nat) (current_input A : List Char) : List Char :=
  if (encode_hint index A).drop current_input.length = [] then [' ']
  else (encode_hint index A).drop current_input.length

/-- `highlight_mark(m, text, current_input, alphabet)`: visible characters of
the replacement spliced over a match.  A match whose label does not extend the
typed prefix is rendered faint (characters unchanged); otherwise the untyped
label suffix (or a single space) is followed by `text[len(hint):]`. -/
def highlight_mark (index : Nat) (text current_input A : List Char) : List Char :=
  let hint := encode_hint index A
  if current_input ≠ [] ∧ current_input.isPrefixOf hint = false then text
  else hintBadge index current_input A ++ text.drop (hintBadge index current_input A).length

/-!  Match extractor: `regex_finditer` (main.py lines 190-197).  The raw spans
produced by the regex engine (`m.span(...)`) are taken as an input list; the
Python regex engine guarantees `0 ≤ s ≤ e ≤ len(text)` for them. -/

/-- The trimming loop `while e > s + 1 and text[e-1] == '\0': e -= 1`. -/
def trimSpan (text : List Char) (s : Nat) : Nat → Nat
  | 0 => 0
  | e + 1 =>
    if s + 1 < e + 1 ∧ text.getD e ' ' = fillerChar then trimSpan text s e
    else e + 1

/-- `regex_finditer(pat, minimum_match_length, text)` applied to the raw spans
`raw` delivered by the pattern engine: trim trailing filler, then keep spans
with `e - s >= minimum_match_length`. -/
def regex_finditer (minLen : Nat) (text : List Char) (raw : List (Nat × Nat)) :
    List (Nat × Nat) :=
  (raw.map (fun p => (p.1, trimSpan text p.1 p.2))).filter
    (fun p => decide (minLen ≤ p.2 - p.1))

/-!  Span refiners (postprocessors): `url`, `brackets`, `quotes`
(main.py lines 200-251). -/

/-- `closing_bracket_map = {'(': ')', '[': ']', '{': '}', '<': '>', '*': '*',
'"': '"', "'": "'"}`.  The final catch-all branch is unreachable in the
guarded uses below (Python would raise `KeyError`). -/
def closing_bracket_map (c : Char) : Char :=
  if c = '(' then ')'
  else if c = '[' then ']'
  else if c = lbraceChar then rbraceChar
  else if c = '<' then '>'
  else if c = '*' then '*'
  else if c = dquote then dquote
  else if c = squote then squote
  else c

/-- `opening_brackets = ''.join(closing_bracket_map)` (the dict keys in
insertion order). -/
def opening_brackets : List Char :=
  ['(', '[', lbraceChar, '<', '*', dquote, squote]

/-- The trailing punctuation characters `'.,?!'` stripped by `url`. -/
def punctChars : List Char := ['.', ',', '?', '!']

/-- The loop `while text[e - 1] in '.,?!' and e > 1: e -= 1` of `url`. -/
def trimPunct (text : List Char) : Nat → Nat
  | 0 => 0
  | 1 => 1
  | e + 2 =>
    if text.getD (e + 1) ' ' ∈ punctChars then trimPunct text (e + 1)
    else e + 2

/-- Accumulator loop for `str.rfind`: remembers the last index seen so far. -/
def rfindAux (c : Char) : List Char → Nat → Option Nat → Option Nat
  | [], _, acc => acc
  | a :: as, i, acc => rfindAux c as (i + 1) (if a = c then some i else acc)

/-- `u.rfind(c)`: index of the last occurrence of `c` in `u` (`none` models
Python's `-1`). -/
def rfind (u : List Char) (c : Char) : Option Nat :=
  rfindAux c u 0 none

/-- Scan for the first occurrence of `c`, counting indices from `i`. -/
def findIdxFrom (c : Char) : List Char → Nat → Option Nat
  | [], _ => none
  | a :: as, i => if a = c then some i else findIdxFrom c as (i + 1)

/-- `text.find(q, s)`: first index `>= s` holding `q` (`none` models `-1`). -/
def str_find (text : List Char) (q : Char) (s : Nat) : Option Nat :=
  findIdxFrom q (text.drop s) s

/-- First block of `url`: asciidoc URLs.
```
if s > 4 and text[s - 5:s] == 'link:':
    url = text[s:e]
    idx = url.rfind('[')
    if idx > -1:
        e -= len(url) - idx
```
-/
def url_stage1 (text : List Char) (s e : Nat) : Nat :=
  if 4 < s ∧ (text.drop (s - 5)).take 5 = ['l', 'i', 'n', 'k', ':'] then
    match rfind ((text.drop s).take (e - s)) '[' with
    | some idx => e - (((text.drop s).take (e - s)).length - idx)
    | none => e
  else e

/-- Third block of `url`: truncate at the closing bracket/quote matching the
character immediately before the match.
```
if s > 0 and e <= len(text) and text[s-1] in opening_brackets:
    q = closing_bracket_map[text[s-1]]
    idx = text.find(q, s)
    if idx > s:
        e = idx
```
-/
def url_stage3 (text : List Char) (s e : Nat) : Nat :=
  if 0 < s ∧ e ≤ text.length ∧ text.getD (s - 1) ' ' ∈ opening_brackets then
    match str_find text (closing_bracket_map (text.getD (s - 1) ' ')) s with
    | some idx => if s < idx then idx else e
    | none => e
  else e

/-- Fourth block of `url`: restructured-text URLs.
`if e > 3 and text[e-2:e] == '`_': e -= 2` -/
def url_stage4 (text : List Char) (e : Nat) : Nat :=
  if 3 < e ∧ (text.drop (e - 2)).take 2 = [backtickChar, '_'] then e - 2
  else e

/-- The `url` postprocessor (main.py lines 210-229), composed of its four
blocks in source order. -/
def url (text : List Char) (s e : Nat) : Nat × Nat :=
  (s, url_stage4 text (url_stage3 text s (trimPunct text (url_stage1 text s e))))

/-- The `brackets` postprocessor (main.py lines 232-240). -/
def brackets (text : List Char) (s e : Nat) : Nat × Nat :=
  if s < e ∧ e ≤ text.length then
    if text.getD s ' ' ∈ ['(', lbraceChar, '[', '<'] ∧
        text.getD (e - 1) ' ' = closing_bracket_map (text.getD s ' ') then
      (s + 1, e - 1)
    else (s, e)
  else (s, e)

/-- The `quotes` postprocessor (main.py lines 243-251). -/
def quotes (text : List Char) (s e : Nat) : Nat × Nat :=
  if s < e ∧ e ≤ text.length then
    if text.getD s ' ' ∈ [squote, dquote] ∧
        text.getD (e - 1) ' ' = text.getD s ' ' then
      (s + 1, e - 1)
    else (s, e)
  else (s, e)

/-!  Selection state machine: class `Hints` (main.py lines 87-187).  The
fields of the model mirror the attributes read by `on_text` / `on_key`; the
render cache `current_text` only memoizes output and is not modelled. -/

/-- A match entity (`class Mark`), restricted to the fields the state machine
reads: its (possibly reassigned) index and its extracted text. -/
structure Mark where
  index : Nat
  text : List Char
deriving DecidableEq

/-- The mutable state of a `Hints` handler plus the per-run constants it
closes over. -/
structure HintsState where
  alphabet : List Char
  index_map : List (Nat × Mark)
  multiple : Bool
  match_suffix : List Char
  current_input : List Char
  chosen : List Mark
  ignore_mark_indices : List Nat
deriving DecidableEq

/-- `set.add`: Python set insertion (membership is all that is ever read). -/
def set_add (i : Nat) (s : List Nat) : List Nat :=
  if i ∈ s then s else i :: s

/-- Dictionary lookup `index_map[idx]` (`none` models `KeyError`). -/
def dict_lookup (k : Nat) : List (Nat × Mark) → Option Mark
  | [] => none
  | p :: ps => if p.1 = k then some p.2 else dict_lookup k ps

/-- The candidate list computed by `on_text`:
`[m for idx, m in self.index_map.items()
   if encode_hint(idx, self.alphabet).startswith(self.current_input)]`.
Note that `ignore_mark_indices` is NOT consulted here. -/
def candidate_matches (st : HintsState) (ci : List Char) : List Mark :=
  (st.index_map.filter (fun p => ci.isPrefixOf (encode_hint p.1 st.alphabet))).map
    Prod.snd

/-- `Hints.on_text` (main.py lines 129-149).  Returns the successor state and
`some code` when `quit_loop(code)` was called. -/
def on_text (st : HintsState) (t : List Char) : HintsState × Option Nat :=
  let accepted := t.filter (fun c => st.alphabet.contains c)
  if accepted = [] then (st, none)
  else
    let ci := st.current_input ++ accepted
    match candidate_matches st ci with
    | [m] =>
      if st.multiple then
        ({ st with
           current_input := [], chosen := st.chosen ++ [m],
           ignore_mark_indices := set_add m.index st.ignore_mark_indices }, none)
      else
        ({ st with current_input := ci, chosen := st.chosen ++ [m] }, some 0)
    | _ => ({ st with current_input := ci }, none)

/-- The key events distinguished by `Hints.on_key`. -/
inductive KeyEvent where
  | backspace
  | enter
  | escape
  | other
deriving DecidableEq

/-- `Hints.on_key` (main.py lines 151-172).  The `try`/`except` around
`decode_hint` and `index_map[idx]` is modelled by the `Option` results. -/
def on_key (st : HintsState) (k : KeyEvent) : HintsState × Option Nat :=
  match k with
  | .backspace => ({ st with current_input := st.current_input.dropLast }, none)
  | .enter =>
    if st.current_input = [] then (st, none)
    else
      match decode_hint st.current_input st.alphabet with
      | none => ({ st with current_input := [] }, none)
      | some idx =>
        match dict_lookup idx st.index_map with
        | none => ({ st with current_input := [] }, none)
        | some m =>
          if st.multiple then
            ({ st with
               current_input := [], chosen := st.chosen ++ [m],
               ignore_mark_indices := set_add idx st.ignore_mark_indices }, none)
          else
            ({ st with
               chosen := st.chosen ++ [m],
               ignore_mark_indices := set_add idx st.ignore_mark_indices }, some 0)
  | .escape => (st, some (if st.multiple then 0 else 1))
  | .other => (st, none)

/-- One input event delivered by the terminal loop. -/
inductive HintEvent where
  | textInput (t : List Char)
  | key (k : KeyEvent)

/-- Dispatch one event to the handler. -/
def step (st : HintsState) : HintEvent → HintsState × Option Nat
  | .textInput t => on_text st t
  | .key k => on_key st k

/-- Run the handler over a list of events; the loop stops at the first
`quit_loop` call (`some code`), or reports `none` while still waiting. -/
def run_events (st : HintsState) : List HintEvent → HintsState × Option Nat
  | [] => (st, none)
  | e :: es =>
    match step st e with
    | (st2, none) => run_events st2 es
    | (st2, some c) => (st2, some c)

/-- `Hints.text_matches`: `[m.text + self.match_suffix for m in self.chosen]`. -/
def text_matches (st : HintsState) : List (List Char) :=
  st.chosen.map (fun m => m.text ++ st.match_suffix)

/-- Outcome of `run_loop` after the loop finished: either the result mapping
(whose `match` entry we retain) or `SystemExit(return_code)`. -/
inductive LoopResult where
  | ok (ms : List (List Char))
  | err (code : Nat)
deriving DecidableEq

/-- Tail of `run_loop` (main.py lines 263-273): a result is produced exactly
when some match was chosen and the loop returned 0. -/
def run_loop_result (st : HintsState) (code : Nat) : LoopResult :=
  if st.chosen ≠ [] ∧ code = 0 then .ok (text_matches st) else .err code

/-- `run_loop` over a finished event list (`none` while no `quit_loop` call
has happened yet). -/
def run_loop_outcome (st : HintsState) (events : List HintEvent) :
    Option LoopResult :=
  match run_events st events with
  | (st2, some code) => some (run_loop_result st2 code)
  | (_, none) => none

/-!  `run` (main.py lines 353-387): the no-matches early exit and the index
reassignment preceding the interactive loop. -/

/-- The options of `HintsCLIOptions` read by the index-assignment code. -/
structure HintArgs where
  ascending : Bool
  hints_offset : Int
deriving DecidableEq

/-- Outcome of `run`: either the early informational exit (no matches: the
user is prompted, `run` returns `None`, the process exits with status 0 and
no result) or entry into the interactive loop with the reindexed marks. -/
inductive RunOutcome where
  | noMatchesMessage
  | interactive (all_marks : List Mark) (index_map : List (Nat × Mark))
deriving DecidableEq

/-- Index reassignment in `run`: `m.index += offset` when ascending, else
`m.index = largest_index - m.index + offset`. -/
def reassignIndex (ascending : Bool) (largest offset : Nat) (m : Mark) : Mark :=
  if ascending then { m with index := m.index + offset }
  else { m with index := largest - m.index + offset }

/-- `run(args, text)` after mark extraction (main.py lines 367-387):
`offset = max(0, args.hints_offset)` is `Int.toNat`. -/
def runHints (args : HintArgs) (all_marks : List Mark) : RunOutcome :=
  if all_marks = [] then .noMatchesMessage
  else
    let largest := (all_marks.getLastD { index := 0, text := [] }).index
    let offset := args.hints_offset.toNat
    let marks := all_marks.map (reassignIndex args.ascending largest offset)
    .interactive marks (marks.map (fun m => (m.index, m)))

/-- Exit information of `run`: `some code` when the process terminates before
the interactive loop, `none` when the loop is entered. -/
def runExitInfo : RunOutcome → Option Nat
  | .noMatchesMessage => some 0
  | .interactive _ _ => none

/-!  Concrete fixtures used by counterexamples and witnesses. -/

/-- Fixture mark with index 0. -/
def mk0 : Mark := { index := 0, text := ['x'] }

/-- Fixture mark with index 1. -/
def mk1 : Mark := { index := 1, text := ['y'] }

/-- Fixture mark with index 2. -/
def mk2 : Mark := { index := 2, text := ['z'] }

/-- Multi-select state over alphabet `ab` in which mark 0 (label `a`) is
already resolved. -/
def stC1 : HintsState :=
  { alphabet := ['a', 'b'], index_map := [(0, mk0), (1, mk1)], multiple := true,
    match_suffix := [' '], current_input := [], chosen := [mk0],
    ignore_mark_indices := [0] }

/-- Multi-select state in which mark 0 is already resolved and its full label
`a` has been typed again. -/
def stC2 : HintsState :=
  { alphabet := ['a', 'b'], index_map := [(0, mk0)], multiple := true,
    match_suffix := [' '], current_input := ['a'], chosen := [mk0],
    ignore_mark_indices := [0] }

/-- Fresh multi-select state with three marks labelled `a`, `b`, `ba`. -/
def stC8 : HintsState :=
  { alphabet := ['a', 'b'], index_map := [(0, mk0), (1, mk1), (2, mk2)],
    multiple := true, match_suffix := [' '], current_input := [], chosen := [],
    ignore_mark_indices := [] }

/-- Events for scenario D: resolve mark 0 by its unique prefix, resolve mark 1
by typing its label and pressing Enter, then press Escape. -/
def eventsC8 : List HintEvent :=
  [.textInput ['a'], .textInput ['b'], .key .enter, .key .escape]

/-!  Helper lemmas about the extractor's trimming loop. -/

/-- Trimming never increases the end offset. -/
theorem trimSpan_le (text : List Char) (s : Nat) : ∀ e, trimSpan text s e ≤ e := by
  intro e
  induction e with
  | zero => simp [trimSpan]
  | succ e ih =>
    unfold trimSpan
    split
    · omega
    · omega

/-- Trimming keeps the end strictly beyond the start whenever it started
there. -/
theorem trimSpan_pos (text : List Char) (s : Nat) :
    ∀ e, s < e → s < trimSpan text s e := by
  intro e
  induction e with
  | zero => omega
  | succ e ih =>
    intro h
    unfold trimSpan
    split
    next hc => exact ih (by omega)
    next hc => omega

/-- Either the loop never ran below `s + 1`, or the end is unchanged. -/
theorem trimSpan_floor (text : List Char) (s : Nat) :
    ∀ e, s + 1 ≤ trimSpan text s e ∨ trimSpan text s e = e := by
  intro e
  induction e with
  | zero => right; simp [trimSpan]
  | succ e ih =>
    unfold trimSpan
    split
    next hc =>
      rcases ih with h | h
      · left; exact h
      · left; omega
    next hc => right; rfl

/-- A span no longer than one character is left untouched. -/
theorem trimSpan_short (text : List Char) (s : Nat) :
    ∀ e, e ≤ s + 1 → trimSpan text s e = e := by
  intro e
  induction e with
  | zero => intro _; simp [trimSpan]
  | succ e ih =>
    intro h
    unfold trimSpan
    split
    next hc => omega
    next hc => rfl

/-- Every character removed by the loop is a filler sentinel. -/
theorem trimSpan_trailing (text : List Char) (s : Nat) :
    ∀ e i, trimSpan text s e ≤ i → i < e → text.getD i ' ' = fillerChar := by
  intro e
  induction e with
  | zero => omega
  | succ e ih =>
    intro i h1 h2
    unfold trimSpan at h1
    revert h1
    split
    next hc =>
      intro h1
      by_cases hi : i = e
      · subst hi; exact hc.2
      · exact ih i h1 (by omega)
    next hc => omega

/-- The loop stops either at length one or at a non-filler character. -/
theorem trimSpan_stop (text : List Char) (s : Nat) :
    ∀ e, trimSpan text s e ≤ s + 1 ∨
      text.getD (trimSpan text s e - 1) ' ' ≠ fillerChar := by
  intro e
  induction e with
  | zero => left; simp [trimSpan]
  | succ e ih =>
    unfold trimSpan
    split
    next hc => exact ih
    next hc =>
      rcases Decidable.not_and_iff_or_not.mp hc with h | h
      · left; omega
      · right; simpa using h

/-- C9: every span yielded by `regex_finditer` satisfies
`s ≤ e ≤ len(text)` and `e - s ≥ minimum_match_length`, and the
filler-trimming loop never moves the end below `start + 1`: it cannot invert
a span, and it cannot reduce a non-empty regex match to an empty one (the
floor of the trimming is length 1). -/
theorem regex_finditer_bounds (minLen : Nat) (text : List Char)
    (raw : List (Nat × Nat))
    (hraw : ∀ p ∈ raw, p.1 ≤ p.2 ∧ p.2 ≤ text.length) :
    (∀ q ∈ regex_finditer minLen text raw,
      q.1 ≤ q.2 ∧ q.2 ≤ text.length ∧ minLen ≤ q.2 - q.1) ∧
    (∀ p ∈ raw, p.1 < p.2 → p.1 < trimSpan text p.1 p.2) ∧
    (∀ p ∈ raw, p.1 + 1 ≤ trimSpan text p.1 p.2 ∨ trimSpan text p.1 p.2 = p.2) := by
  refine ⟨?_, ?_, ?_⟩
  · intro q hq
    unfold regex_finditer at hq
    rw [List.mem_filter] at hq
    obtain ⟨hmem, hfilt⟩ := hq
    rw [List.mem_map] at hmem
    obtain ⟨p, hp, hpq⟩ := hmem
    obtain ⟨h1, h2⟩ := hraw p hp
    subst hpq
    have hle := trimSpan_le text p.1 p.2
    have hmin : minLen ≤ trimSpan text p.1 p.2 - p.1 := by
      simpa using hfilt
    refine ⟨?_, by omega, hmin⟩
    by_cases hlt : p.1 < p.2
    · have := trimSpan_pos text p.1 p.2 hlt
      omega
    · have hpe : p.2 = p.1 := by omega
      rw [hpe, trimSpan_short text p.1 p.1 (by omega)]
  · intro p _ hlt
    exact trimSpan_pos text p.1 p.2 hlt
  · intro p _
    exact trimSpan_floor text p.1 p.2

/-- C9 witness: instantiation at a concrete raw span. -/
theorem regex_finditer_bounds_witness :
    0 < trimSpan ['a', 'b', 'c'] 0 3 :=
  (regex_finditer_bounds 0 ['a', 'b', 'c'] [(0, 3)] (by decide)).2.1 (0, 3)
    (by decide) (by decide)

/-- C4 counterexample: with minimum length 3, the raw span `(0, 5)` over
`"ab\0\0\0"` has length `5 ≥ 3` counting trailing filler, yet the extractor
trims it to length 2 (the trimming does not stop at the minimum length) and
then discards it, contradicting the claim that such a match is kept. -/
theorem regex_finditer_discards_filler_padded_match :
    3 ≤ 5 - 0 ∧
    regex_finditer 3 (['a', 'b'] ++ [fillerChar, fillerChar, fillerChar])
      [(0, 5)] = [] := by
  constructor
  · decide
  · decide

/-- C4 (amended): the extractor trims the span's end backward over trailing
filler sentinels while the span stays longer than ONE character — regardless
of the minimum match length — and then discards the match iff the trimmed
length is below the minimum.  Hence a match is kept iff its filler-trimmed
length (with floor 1) reaches the minimum; trailing filler is never retained
to pad a short match up to the minimum length. -/
theorem regex_finditer_trim_characterization (text : List Char)
    (s e minLen : Nat) (h : s < e) (he : e ≤ text.length) :
    (s < trimSpan text s e ∧ trimSpan text s e ≤ e) ∧
    (∀ i, trimSpan text s e ≤ i → i < e → text.getD i ' ' = fillerChar) ∧
    (trimSpan text s e ≤ s + 1 ∨
      text.getD (trimSpan text s e - 1) ' ' ≠ fillerChar) ∧
    regex_finditer minLen text [(s, e)] =
      (if minLen ≤ trimSpan text s e - s then [(s, trimSpan text s e)] else []) := by
  refine ⟨⟨trimSpan_pos text s e h, trimSpan_le text s e⟩,
    trimSpan_trailing text s e, trimSpan_stop text s e, ?_⟩
  unfold regex_finditer
  by_cases hc : minLen ≤ trimSpan text s e - s
  · rw [if_pos hc]
    simp [hc]
  · rw [if_neg hc]
    simp [hc]

/-- C4 witness: instantiation at a concrete span kept by the extractor. -/
theorem regex_finditer_trim_characterization_witness :
    regex_finditer 2 ['a', 'b', 'c'] [(0, 3)] =
      (if 2 ≤ trimSpan ['a', 'b', 'c'] 0 3 - 0
       then [(0, trimSpan ['a', 'b', 'c'] 0 3)] else []) :=
  (regex_finditer_trim_characterization ['a', 'b', 'c'] 0 3 2 (by decide)
    (by decide)).2.2.2

/-!  Helper lemmas about the hint codec. -/

/-- A character absent from the remaining alphabet is never found. -/
theorem index_map_getAux_not_mem (c : Char) :
    ∀ (as : List Char) (i : Nat), c ∉ as → index_map_getAux c as i = none := by
  intro as
  induction as with
  | nil => intro i _; rfl
  | cons a as ih =>
    intro i h
    rw [List.mem_cons, not_or] at h
    unfold index_map_getAux
    rw [ih (i + 1) h.2]
    simp only []
    rw [if_neg (fun hac => h.1 hac.symm)]

/-- On a duplicate-free alphabet, the dictionary maps the `j`-th character to
`i + j` when scanning starts at offset `i`. -/
theorem index_map_getAux_get (A : List Char) (hnd : A.Nodup) :
    ∀ (j : Nat) (hj : j < A.length) (i : Nat),
      index_map_getAux (A.get ⟨j, hj⟩) A i = some (i + j) := by
  induction A with
  | nil => intro j hj _; simp at hj
  | cons a as ih =>
    intro j hj i
    rw [List.nodup_cons] at hnd
    match j with
    | 0 =>
      show index_map_getAux a (a :: as) i = some (i + 0)
      unfold index_map_getAux
      rw [index_map_getAux_not_mem a as (i + 1) hnd.1]
      simp
    | j' + 1 =>
      show index_map_getAux (as.get ⟨j', _⟩) (a :: as) i = some (i + (j' + 1))
      unfold index_map_getAux
      rw [ih hnd.2 j' (by simp only [List.length_cons] at hj; omega) (i + 1)]
      simp only []
      congr 1
      omega

/-- `List.getD` agrees with `List.get` inside bounds. -/
theorem getD_eq_get (l : List Char) :
    ∀ (j : Nat) (hj : j < l.length) (d : Char), l.getD j d = l.get ⟨j, hj⟩ := by
  induction l with
  | nil => intro j hj _; simp at hj
  | cons a as ih =>
    intro j hj d
    match j with
    | 0 => rfl
    | j' + 1 => exact ih j' (by simpa using hj) d

/-- On a duplicate-free alphabet the dictionary recovers each digit value. -/
theorem index_map_get_digit (A : List Char) (hnd : A.Nodup) (j : Nat)
    (hj : j < A.length) : index_map_get A (A.getD j ' ') = some j := by
  unfold index_map_get
  rw [getD_eq_get A j hj ' ', index_map_getAux_get A hnd j hj 0]
  simp

/-- Decoding distributes over list append. -/
theorem decode_hintAux_append (A : List Char) (xs ys : List Char) :
    ∀ i, decode_hintAux A i (xs ++ ys) =
      match decode_hintAux A i xs with
      | none => none
      | some j => decode_hintAux A j ys := by
  induction xs with
  | nil => intro i; rfl
  | cons c cs ih =>
    intro i
    cases hres : index_map_get A c with
    | none =>
      show decode_hintAux A i (c :: (cs ++ ys)) = _
      simp only [decode_hintAux, hres]
    | some j =>
      show decode_hintAux A i (c :: (cs ++ ys)) = _
      simp only [decode_hintAux, hres]
      exact ih (i * A.length + j)

/-- Decoding the reference digit string of `num` with accumulator `i` yields
`i * base ^ digits + num`. -/
theorem decode_encDigits (A : List Char) (h2 : 2 ≤ A.length) (hnd : A.Nodup) :
    ∀ num i, decode_hintAux A i (encDigits A num) =
      some (i * A.length ^ (encDigits A num).length + num) := by
  intro num
  induction num using Nat.strong_induction_on with
  | _ num ih =>
    intro i
    by_cases hlt : num < A.length
    · rw [encDigits, dif_pos (Or.inl hlt)]
      have hmod : num % A.length = num := Nat.mod_eq_of_lt hlt
      rw [hmod]
      unfold decode_hintAux
      rw [index_map_get_digit A hnd num hlt]
      show decode_hintAux A (i * A.length + num) [] = _
      unfold decode_hintAux
      simp [pow_one]
    · have hcond : ¬(num < A.length ∨ A.length ≤ 1) := by omega
      rw [encDigits, dif_neg hcond]
      rw [decode_hintAux_append A _ _ i]
      have hdivlt : num / A.length < num := Nat.div_lt_self (by omega) (by omega)
      rw [ih (num / A.length) hdivlt i]
      have hmlt : num % A.length < A.length := Nat.mod_lt num (by omega)
      show decode_hintAux A _ [A.getD (num % A.length) ' '] = _
      unfold decode_hintAux
      rw [index_map_get_digit A hnd (num % A.length) hmlt]
      show decode_hintAux A _ [] = _
      unfold decode_hintAux
      congr 1
      rw [List.length_append, List.length_singleton, pow_succ]
      have hdm : A.length * (num / A.length) + num % A.length = num :=
        Nat.div_add_mod num A.length
      set k := (encDigits A (num / A.length)).length
      calc (i * A.length ^ k + num / A.length) * A.length + num % A.length
          = i * (A.length ^ k * A.length) +
            (A.length * (num / A.length) + num % A.length) := by ring
        _ = i * (A.length ^ k * A.length) + num := by rw [hdm]

/-- For base at least 2 the fuel `num + 1` is never exhausted, and the loop
produces exactly the reference digit string. -/
theorem encode_hintAux_eq_encDigits (A : List Char) (h2 : 2 ≤ A.length) :
    ∀ fuel num res, num < fuel →
      encode_hintAux A fuel num res = encDigits A num ++ res := by
  intro fuel
  induction fuel with
  | zero => omega
  | succ f ih =>
    intro num res h
    unfold encode_hintAux
    by_cases hd : num / A.length = 0
    · rw [if_pos hd]
      have hlt : num < A.length := by
        rcases Nat.lt_or_ge num A.length with h' | h'
        · exact h'
        · exfalso
          have := Nat.div_le_div_right (c := A.length) h'
          rw [Nat.div_self (by omega)] at this
          omega
      rw [encDigits, dif_pos (Or.inl hlt)]
      rfl
    · rw [if_neg hd]
      have hge : A.length ≤ num := by
        by_contra hc
        exact hd (Nat.div_eq_of_lt (by omega))
      have hdivlt : num / A.length < num := Nat.div_lt_self (by omega) (by omega)
      have hrhs : encDigits A num =
          encDigits A (num / A.length) ++ [A.getD (num % A.length) ' '] := by
        rw [encDigits]
        rw [dif_neg (by omega)]
      rw [hrhs, List.append_assoc, ih (num / A.length) _ (by omega)]
      rfl

/-- `encode_hint` equals the reference digit string. -/
theorem encode_hint_eq (A : List Char) (h2 : 2 ≤ A.length) (num : Nat) :
    encode_hint num A = encDigits A num := by
  unfold encode_hint
  rw [encode_hintAux_eq_encDigits A h2 (num + 1) num [] (by omega),
    List.append_nil]

/-- C5: for every alphabet of distinct characters with length at least 2 and
every index, decoding the encoding of the index yields the index back:
`decode_hint(encode_hint(i, alphabet), alphabet) == i`. -/
theorem decode_encode_roundtrip (i : Nat) (A : List Char) (h2 : 2 ≤ A.length)
    (hnd : A.Nodup) : decode_hint (encode_hint i A) A = some i := by
  unfold decode_hint
  rw [encode_hint_eq A h2 i, decode_encDigits A h2 hnd i 0]
  simp

/-- C5 witness: round trip at index 5 over the alphabet `ab`. -/
theorem decode_encode_roundtrip_witness :
    decode_hint (encode_hint 5 ['a', 'b']) ['a', 'b'] = some 5 :=
  decode_encode_roundtrip 5 ['a', 'b'] (by decide) (by decide)

/-- A character of the alphabet is always found by the dictionary. -/
theorem index_map_getAux_is_some (c : Char) :
    ∀ (as : List Char), c ∈ as → ∀ i, ∃ j, index_map_getAux c as i = some j := by
  intro as
  induction as with
  | nil => intro h; simp at h
  | cons a as ih =>
    intro h i
    rw [List.mem_cons] at h
    by_cases hmem : c ∈ as
    · obtain ⟨j, hj⟩ := ih hmem (i + 1)
      exact ⟨j, by unfold index_map_getAux; rw [hj]⟩
    · have hca : c = a := by tauto
      cases hrec : index_map_getAux c as (i + 1) with
      | some j => exact ⟨j, by unfold index_map_getAux; rw [hrec]⟩
      | none =>
        refine ⟨i, ?_⟩
        unfold index_map_getAux
        rw [hrec]
        simp only []
        rw [if_pos hca.symm]

/-- Decoding succeeds on every string over the alphabet. -/
theorem decode_hintAux_total (A : List Char) :
    ∀ (x : List Char), (∀ c ∈ x, c ∈ A) → ∀ i, ∃ n, decode_hintAux A i x = some n := by
  intro x
  induction x with
  | nil => intro _ i; exact ⟨i, rfl⟩
  | cons c cs ih =>
    intro h i
    obtain ⟨j, hj⟩ := index_map_getAux_is_some c A (h c (by simp)) 0
    have hg : index_map_get A c = some j := hj
    obtain ⟨n, hn⟩ := ih (fun d hd => h d (by simp [hd])) (i * A.length + j)
    refine ⟨n, ?_⟩
    show (match index_map_get A c with
      | none => none
      | some j => decode_hintAux A (i * A.length + j) cs) = some n
    rw [hg]
    exact hn

/-- C10: `decode_hint` is total on strings over the alphabet but not
injective: it maps the empty string to 0; prepending the first alphabet
symbol never changes the decoded index (so every index has infinitely many
decodable spellings); and `encode_hint(decode_hint(x))` need not equal `x`
(witnessed by `"00"` over the alphabet `01`). -/
theorem decode_hint_total_not_injective (A x : List Char)
    (hx : ∀ c ∈ x, c ∈ A) (hnd : A.Nodup) (hne : A ≠ []) :
    (∃ n, decode_hint x A = some n) ∧
    decode_hint ([] : List Char) A = some 0 ∧
    decode_hint (A.headD ' ' :: x) A = decode_hint x A ∧
    (decode_hint ['0', '0'] ['0', '1'] = decode_hint ['0'] ['0', '1'] ∧
      (['0', '0'] : List Char) ≠ ['0'] ∧
      decode_hint ['0', '0'] ['0', '1'] = some 0 ∧
      encode_hint 0 ['0', '1'] ≠ ['0', '0']) := by
  refine ⟨decode_hintAux_total A x hx 0, rfl, ?_, by decide, by decide, by decide,
    by decide⟩
  match A, hne with
  | a :: as, _ =>
    show decode_hintAux (a :: as) 0 (a :: x) = decode_hintAux (a :: as) 0 x
    have h0 : index_map_get (a :: as) a = some 0 := by
      have := index_map_getAux_get (a :: as) hnd 0 (by simp) 0
      simpa using this
    have hstep : decode_hintAux (a :: as) 0 (a :: x) =
        match index_map_get (a :: as) a with
        | none => none
        | some j => decode_hintAux (a :: as) (0 * (a :: as).length + j) x := rfl
    rw [hstep, h0]
    simp

/-- C10 witness: instantiation over the alphabet `01`. -/
theorem decode_hint_total_not_injective_witness :
    decode_hint ((['0', '1'] : List Char).headD ' ' :: ['1']) ['0', '1'] =
      decode_hint ['1'] ['0', '1'] :=
  (decode_hint_total_not_injective ['0', '1'] ['1'] (by decide) (by decide)
    (by decide)).2.2.1

/-!  Helper lemmas about the selection state machine. -/

/-- An added index is a member of the updated ignore set. -/
theorem mem_set_add_self (i : Nat) (s : List Nat) : i ∈ set_add i s := by
  unfold set_add
  split
  next h => exact h
  next h => exact List.mem_cons_self i s

/-- Behaviour of `on_text` when the typed characters leave exactly one
candidate. -/
theorem on_text_eq (st : HintsState) (t : List Char) (m : Mark)
    (hacc : t.filter (fun c => st.alphabet.contains c) ≠ [])
    (hm : candidate_matches st
      (st.current_input ++ t.filter (fun c => st.alphabet.contains c)) = [m]) :
    on_text st t =
      (if st.multiple then
        ({ st with
           current_input := [], chosen := st.chosen ++ [m],
           ignore_mark_indices := set_add m.index st.ignore_mark_indices }, none)
      else
        ({ st with
           current_input :=
             st.current_input ++ t.filter (fun c => st.alphabet.contains c),
           chosen := st.chosen ++ [m] }, some 0)) := by
  simp only [on_text]
  rw [if_neg hacc, hm]

/-- C1 counterexample: in the multi-select state `stC1` the index 0 is
already in `ignoredIndices`, yet typing `a` (whose label prefix set is
exactly the already-resolved mark 0) resolves mark 0 a second time —
`on_text` never consults `ignore_mark_indices`, contradicting the claimed
definition of the live set. -/
theorem on_text_resolves_already_ignored :
    0 ∈ stC1.ignore_mark_indices ∧ stC1.multiple = true ∧
    stC1.chosen = [mk0] ∧ mk0.index = 0 ∧
    (on_text stC1 ['a']).1.chosen = [mk0, mk0] := by
  refine ⟨by decide, by decide, by decide, by decide, by decide⟩

/-- C1 (amended): on character input the state machine appends the accepted
alphabet characters to `currentInput` and recomputes the candidate set as
exactly the matches whose encoded label starts with `currentInput` — WITHOUT
excluding `ignoredIndices` (the candidate set is invariant under arbitrary
changes of the ignore set); whenever exactly one candidate remains it is
resolved immediately, so in multi-select mode an already-resolved match can
be resolved a second time by character input. -/
theorem on_text_sole_candidate_resolves (st : HintsState) (t : List Char)
    (m : Mark)
    (hacc : t.filter (fun c => st.alphabet.contains c) ≠ [])
    (hm : candidate_matches st
      (st.current_input ++ t.filter (fun c => st.alphabet.contains c)) = [m]) :
    (on_text st t).1.chosen = st.chosen ++ [m] ∧
    (∀ l, candidate_matches { st with ignore_mark_indices := l }
      (st.current_input ++ t.filter (fun c => st.alphabet.contains c)) = [m]) ∧
    (st.multiple = true →
      (on_text st t).2 = none ∧
      m.index ∈ (on_text st t).1.ignore_mark_indices ∧
      (on_text st t).1.current_input = []) ∧
    (st.multiple = false → (on_text st t).2 = some 0) := by
  rw [on_text_eq st t m hacc hm]
  by_cases hmul : st.multiple
  · rw [if_pos hmul]
    refine ⟨rfl, fun l => hm, fun _ => ⟨rfl, ?_, rfl⟩, fun hf => by rw [hmul] at hf; cases hf⟩
    exact mem_set_add_self m.index st.ignore_mark_indices
  · rw [if_neg hmul]
    exact ⟨rfl, fun l => hm, fun ht => absurd ht hmul, fun _ => rfl⟩

/-- C1 witness: instantiation at the concrete state `stC1`. -/
theorem on_text_sole_candidate_resolves_witness :
    (on_text stC1 ['a']).1.chosen = stC1.chosen ++ [mk0] :=
  (on_text_sole_candidate_resolves stC1 ['a'] mk0 (by decide) (by decide)).1

/-- C2 counterexample: in the multi-select state `stC2` the typed label `a`
decodes to index 0, which is already in `ignoredIndices` (so it has no live
match), yet Enter resolves mark 0 a second time instead of clearing
`currentInput` without mutating `chosen`. -/
theorem on_key_enter_resolves_ignored :
    0 ∈ stC2.ignore_mark_indices ∧
    decode_hint stC2.current_input stC2.alphabet = some 0 ∧
    (on_key stC2 .enter).1.chosen = [mk0, mk0] ∧
    (on_key stC2 .enter).2 = none := by
  refine ⟨by decide, by decide, by decide, by decide⟩

/-- C2 (amended): on Enter with non-empty `currentInput`, the state machine
resolves the decoded index iff it is a key of `index_map` — regardless of
`ignoredIndices`, so an already-resolved index is appended to `chosen`
again; when decoding fails or the index is unknown, it clears `currentInput`
and continues the loop (returns no quit code) without mutating `chosen` or
`ignoredIndices`. -/
theorem on_key_enter_spec (st : HintsState) (h : st.current_input ≠ []) :
    (∀ idx m, decode_hint st.current_input st.alphabet = some idx →
      dict_lookup idx st.index_map = some m →
      (on_key st .enter).1.chosen = st.chosen ++ [m] ∧
      idx ∈ (on_key st .enter).1.ignore_mark_indices ∧
      (on_key st .enter).2 = (if st.multiple then none else some 0)) ∧
    (decode_hint st.current_input st.alphabet = none →
      on_key st .enter = ({ st with current_input := [] }, none)) ∧
    (∀ idx, decode_hint st.current_input st.alphabet = some idx →
      dict_lookup idx st.index_map = none →
      on_key st .enter = ({ st with current_input := [] }, none)) := by
  refine ⟨?_, ?_, ?_⟩
  · intro idx m hdec hlook
    have hkey : on_key st .enter =
        (if st.multiple then
          ({ st with
             current_input := [], chosen := st.chosen ++ [m],
             ignore_mark_indices := set_add idx st.ignore_mark_indices }, none)
        else
          ({ st with
             chosen := st.chosen ++ [m],
             ignore_mark_indices := set_add idx st.ignore_mark_indices },
            some 0)) := by
      simp only [on_key, hdec, hlook]
      rw [if_neg h]
    rw [hkey]
    by_cases hmul : st.multiple
    · rw [if_pos hmul, if_pos hmul]
      exact ⟨rfl, mem_set_add_self idx st.ignore_mark_indices, rfl⟩
    · rw [if_neg hmul, if_neg hmul]
      exact ⟨rfl, mem_set_add_self idx st.ignore_mark_indices, rfl⟩
  · intro hdec
    simp only [on_key, hdec]
    rw [if_neg h]
  · intro idx hdec hlook
    simp only [on_key, hdec, hlook]
    rw [if_neg h]

/-- C2 witness: instantiation at the concrete state `stC2`. -/
theorem on_key_enter_spec_witness :
    (on_key stC2 .enter).1.chosen = stC2.chosen ++ [mk0] :=
  ((on_key_enter_spec stC2 (by decide)).1 0 mk0 (by decide) (by decide)).1

/-- C8: Escape quits the loop with code 0 in multi-select mode and code 1
otherwise, leaving the state unchanged; with code 0 and a non-empty `chosen`
list, `run_loop` returns the chosen match texts in selection order, while
code 1 raises `SystemExit(1)` with no result.  Scenario D: from the fresh
3-mark multi-select state, resolving marks 0 and 1 and pressing Escape ends
the loop with a result holding exactly those two matches in selection order,
mark 2 remaining unchosen. -/
theorem escape_exit_codes (st : HintsState) :
    on_key st .escape = (st, some (if st.multiple then 0 else 1)) ∧
    (st.multiple = true → st.chosen ≠ [] →
      run_loop_result st 0 = .ok (text_matches st)) ∧
    (st.multiple = false → run_loop_result st 1 = .err 1) ∧
    run_loop_outcome stC8 eventsC8 = some (.ok [['x', ' '], ['y', ' ']]) ∧
    (run_events stC8 eventsC8).1.chosen = [mk0, mk1] ∧
    mk2 ∉ (run_events stC8 eventsC8).1.chosen := by
  refine ⟨rfl, ?_, ?_, by decide, by decide, by decide⟩
  · intro _ hc
    unfold run_loop_result
    rw [if_pos ⟨hc, rfl⟩]
  · intro _
    unfold run_loop_result
    rw [if_neg (by simp)]

/-- C8 witness: instantiation at a state with one resolved match. -/
theorem escape_exit_codes_witness :
    run_loop_result { stC8 with chosen := [mk0] } 0 =
      .ok (text_matches { stC8 with chosen := [mk0] }) :=
  (escape_exit_codes { stC8 with chosen := [mk0] }).2.1 (by decide) (by decide)

/-- C6 counterexample: for the match text `"x"` (width 1) and label `"10"`
over the alphabet `01` with nothing typed, the rendered replacement is the
two-character badge `"10"` — wider than the original match text,
contradicting the claimed width bound. -/
theorem highlight_mark_can_widen :
    (highlight_mark 2 ['x'] [] ['0', '1']).length = 2 ∧
    (['x'] : List Char).length = 1 ∧
    ¬((highlight_mark 2 ['x'] [] ['0', '1']).length ≤ (['x'] : List Char).length) := by
  refine ⟨by decide, by decide, by decide⟩

/-- C6 (amended): for every match whose label has `currentInput` as a prefix,
the renderer replaces the match text with the untyped label suffix (or a
single space when the label is fully typed) followed by the portion of the
original text beyond the badge's length; the replacement occupies exactly
`max(badge width, original width)` characters — no more than the original
match text exactly when the badge is no longer than the original text. -/
theorem highlight_mark_width (index : Nat) (text ci A : List Char)
    (h : ci.isPrefixOf (encode_hint index A) = true) :
    highlight_mark index text ci A =
      hintBadge index ci A ++ text.drop (hintBadge index ci A).length ∧
    (highlight_mark index text ci A).length =
      max (hintBadge index ci A).length text.length := by
  have hcond : ¬(ci ≠ [] ∧ ci.isPrefixOf (encode_hint index A) = false) := by
    rintro ⟨-, hfalse⟩
    rw [h] at hfalse
    cases hfalse
  have heq : highlight_mark index text ci A =
      hintBadge index ci A ++ text.drop (hintBadge index ci A).length := by
    simp only [highlight_mark]
    rw [if_neg hcond]
  refine ⟨heq, ?_⟩
  rw [heq, List.length_append, List.length_drop]
  rcases Nat.le_total (hintBadge index ci A).length text.length with hle | hle
  · rw [Nat.max_eq_right hle]
    omega
  · rw [Nat.max_eq_left hle]
    omega

/-- C6 witness: instantiation where the label fits inside the match text. -/
theorem highlight_mark_width_witness :
    (highlight_mark 0 ['x', 'y'] [] ['0', '1']).length =
      max (hintBadge 0 [] ['0', '1']).length (['x', 'y'] : List Char).length :=
  (highlight_mark_width 0 ['x', 'y'] [] ['0', '1'] (by decide)).2

/-- C7: when pattern extraction yields no matches, `run` neither builds an
index map nor enters the interactive loop: it reports the informational
outcome, the process terminates with exit status 0 and an empty result, and
the interactive outcome is reserved for non-empty mark lists. -/
theorem run_no_matches (args : HintArgs) (all_marks : List Mark)
    (h : all_marks = []) :
    runHints args all_marks = .noMatchesMessage ∧
    runExitInfo (runHints args all_marks) = some 0 ∧
    ∀ marks2 : List Mark, marks2 ≠ [] →
      runHints args marks2 ≠ .noMatchesMessage := by
  subst h
  refine ⟨by simp [runHints], by simp [runHints, runExitInfo], ?_⟩
  intro marks2 h2
  unfold runHints
  rw [if_neg h2]
  simp

/-- C7 witness: instantiation at the default options and no marks. -/
theorem run_no_matches_witness :
    runHints { ascending := false, hints_offset := 1 } [] =
      RunOutcome.noMatchesMessage :=
  (run_no_matches { ascending := false, hints_offset := 1 } [] rfl).1

/-!  Helper lemmas about the span refiners. -/

/-- The punctuation-trimming loop never increases the end offset. -/
theorem trimPunct_le (text : List Char) : ∀ e, trimPunct text e ≤ e := by
  intro e
  induction e using Nat.strong_induction_on with
  | _ e ih =>
    match e with
    | 0 => simp [trimPunct]
    | 1 => simp [trimPunct]
    | e + 2 =>
      unfold trimPunct
      split
      next => have := ih (e + 1) (by omega); omega
      next => omega

/-- The punctuation-trimming loop stops at offset 1. -/
theorem trimPunct_pos (text : List Char) : ∀ e, 1 ≤ e → 1 ≤ trimPunct text e := by
  intro e
  induction e using Nat.strong_induction_on with
  | _ e ih =>
    match e with
    | 0 => omega
    | 1 => intro _; simp [trimPunct]
    | e + 2 =>
      intro _
      unfold trimPunct
      split
      next => exact ih (e + 1) (by omega) (by omega)
      next => omega

/-- Any index reported by the `rfind` accumulator loop is below the scanned
length (given the invariant on the accumulator). -/
theorem rfindAux_bound (c : Char) :
    ∀ (u : List Char) (i : Nat) (acc : Option Nat) (j : Nat),
      (∀ k, acc = some k → k < i) → rfindAux c u i acc = some j →
      j < i + u.length := by
  intro u
  induction u with
  | nil =>
    intro i acc j hacc hres
    have := hacc j hres
    simpa using this
  | cons a as ih =>
    intro i acc j hacc hres
    have := ih (i + 1) (if a = c then some i else acc) j ?_ hres
    · simp only [List.length_cons]
      omega
    · intro k hk
      revert hk
      split
      · intro hk
        cases hk
        omega
      · intro hk
        have := hacc k hk
        omega

/-- `rfind` reports an index inside the string. -/
theorem rfind_bound (u : List Char) (c : Char) (j : Nat)
    (h : rfind u c = some j) : j < u.length := by
  have := rfindAux_bound c u 0 none j (by intro k hk; cases hk) h
  simpa using this

/-- `findIdxFrom` reports an index at or beyond the start offset and inside
the scanned region. -/
theorem findIdxFrom_bound (c : Char) :
    ∀ (l : List Char) (i j : Nat), findIdxFrom c l i = some j →
      i ≤ j ∧ j < i + l.length := by
  intro l
  induction l with
  | nil => intro i j h; cases h
  | cons a as ih =>
    intro i j h
    unfold findIdxFrom at h
    revert h
    split
    · intro h
      cases h
      simp only [List.length_cons]
      omega
    · intro h
      have := ih (i + 1) j h
      simp only [List.length_cons]
      omega

/-- `str.find(q, s)` reports an index between `s` and the text length. -/
theorem str_find_bound (text : List Char) (q : Char) (s j : Nat)
    (h : str_find text q s = some j) (hs : s ≤ text.length) :
    s ≤ j ∧ j < text.length := by
  unfold str_find at h
  have := findIdxFrom_bound q (text.drop s) s j h
  rw [List.length_drop] at this
  omega

/-- Bounds of the asciidoc block of `url`. -/
theorem url_stage1_bounds (text : List Char) (s e : Nat) (h1 : s < e) :
    1 ≤ url_stage1 text s e ∧ url_stage1 text s e ≤ e := by
  unfold url_stage1
  split
  next hc =>
    have hs4 : 4 < s := hc.1
    split
    next idx heq =>
      have hidx := rfind_bound _ '[' idx heq
      have hlen : ((text.drop s).take (e - s)).length ≤ e - s := by
        rw [List.length_take]
        omega
      constructor
      · omega
      · omega
    next => exact ⟨by omega, le_refl e⟩
  next => exact ⟨by omega, le_refl e⟩

/-- Bounds of the closing-delimiter block of `url`. -/
theorem url_stage3_bounds (text : List Char) (s e : Nat) (he1 : 1 ≤ e)
    (he2 : e ≤ text.length) (hs : s < text.length) :
    1 ≤ url_stage3 text s e ∧ url_stage3 text s e ≤ text.length := by
  unfold url_stage3
  split
  next hc =>
    split
    next idx heq =>
      have hb := str_find_bound text _ s idx heq (by omega)
      split
      next hlt => exact ⟨by omega, by omega⟩
      next => exact ⟨he1, he2⟩
    next => exact ⟨he1, he2⟩
  next => exact ⟨he1, he2⟩

/-- Bounds of the restructured-text block of `url`. -/
theorem url_stage4_bounds (text : List Char) (e : Nat) (he1 : 1 ≤ e) :
    1 ≤ url_stage4 text e ∧ url_stage4 text e ≤ e := by
  unfold url_stage4
  split
  next hc => exact ⟨by omega, by omega⟩
  next => exact ⟨he1, le_refl e⟩

/-- C3 counterexample: the `url` refiner applied to the text `"...."` and the
span `(2, 4)` — which satisfies `0 ≤ 2 < 4 ≤ 4 = len(text)` — returns the
INVERTED span `(2, 1)` with `start' > end'`: the trailing-punctuation loop
stops at offset 1, not at the span's start, contradicting the claim that
every refiner preserves `start' < end'`. -/
theorem url_inverts_span :
    (2 < 4 ∧ 4 ≤ (['.', '.', '.', '.'] : List Char).length) ∧
    url ['.', '.', '.', '.'] 2 4 = (2, 1) ∧
    ¬((url ['.', '.', '.', '.'] 2 4).1 < (url ['.', '.', '.', '.'] 2 4).2) := by
  refine ⟨by decide, by decide, by decide⟩

/-- C3 (amended): for every text and every input span with
`0 ≤ start < end ≤ len(text)`: `brackets` returns a span with
`start ≤ start' ≤ end' ≤ end ≤ len(text)` (it never inverts, though
`start' = end'` occurs on a length-2 bracket pair); `quotes` shrinks each
side by at most one and never inverts when the span has length at least 2,
but a length-1 span on a quote character becomes the inverted
`(start+1, start)`; `url` keeps `start' = start` and guarantees only
`1 ≤ end' ≤ len(text)` — it may produce `end' < start'`. -/
theorem refiner_bounds (text : List Char) (s e : Nat) (h1 : s < e)
    (h2 : e ≤ text.length) :
    (s ≤ (brackets text s e).1 ∧ (brackets text s e).1 ≤ (brackets text s e).2 ∧
      (brackets text s e).2 ≤ e) ∧
    (s ≤ (quotes text s e).1 ∧ (quotes text s e).1 ≤ s + 1 ∧
      e - 1 ≤ (quotes text s e).2 ∧ (quotes text s e).2 ≤ e ∧
      (s + 2 ≤ e → (quotes text s e).1 ≤ (quotes text s e).2)) ∧
    ((url text s e).1 = s ∧ 1 ≤ (url text s e).2 ∧
      (url text s e).2 ≤ text.length) := by
  refine ⟨?_, ?_, ?_⟩
  · unfold brackets
    rw [if_pos ⟨h1, h2⟩]
    split
    next hcond =>
      have hmem := hcond.1
      have hclose := hcond.2
      have hne : e ≠ s + 1 := by
        intro heq
        have hes : e - 1 = s := by omega
        rw [hes] at hclose
        have hor : text.getD s ' ' = '(' ∨ text.getD s ' ' = lbraceChar ∨
            text.getD s ' ' = '[' ∨ text.getD s ' ' = '<' := by
          simpa using hmem
        rcases hor with hc | hc | hc | hc
        · rw [hc] at hclose
          exact absurd hclose (by decide)
        · rw [hc] at hclose
          exact absurd hclose (by decide)
        · rw [hc] at hclose
          exact absurd hclose (by decide)
        · rw [hc] at hclose
          exact absurd hclose (by decide)
      show s ≤ s + 1 ∧ s + 1 ≤ e - 1 ∧ e - 1 ≤ e
      omega
    next => exact ⟨le_refl s, by omega, le_refl e⟩
  · unfold quotes
    rw [if_pos ⟨h1, h2⟩]
    split
    next hcond =>
      show s ≤ s + 1 ∧ s + 1 ≤ s + 1 ∧ e - 1 ≤ e - 1 ∧ e - 1 ≤ e ∧
        (s + 2 ≤ e → s + 1 ≤ e - 1)
      omega
    next => exact ⟨le_refl s, by omega, by omega, le_refl e, fun _ => by omega⟩
  · have h1a := url_stage1_bounds text s e h1
    have h2a := trimPunct_le text (url_stage1 text s e)
    have h2b := trimPunct_pos text (url_stage1 text s e) h1a.1
    have h3a := url_stage3_bounds text s (trimPunct text (url_stage1 text s e))
      h2b (by omega) (by omega)
    have h4a := url_stage4_bounds text
      (url_stage3 text s (trimPunct text (url_stage1 text s e))) h3a.1
    have hfst : (url text s e).1 = s := rfl
    have hsnd : (url text s e).2 =
        url_stage4 text (url_stage3 text s (trimPunct text (url_stage1 text s e))) :=
      rfl
    rw [hfst, hsnd]
    exact ⟨rfl, h4a.1, by omega⟩

/-- C3 witness: instantiation at a concrete span. -/
theorem refiner_bounds_witness :
    1 ≤ (url ['a', 'b', 'c'] 0 3).2 ∧
    (url ['a', 'b', 'c'] 0 3).2 ≤ (['a', 'b', 'c'] : List Char).length :=
  ⟨(refiner_bounds ['a', 'b', 'c'] 0 3 (by decide) (by decide)).2.2.2.1,
    (refiner_bounds ['a', 'b', 'c'] 0 3 (by decide) (by decide)).2.2.2.2⟩
